import Mathlib

/-!
A shallow embedding, in Lean 4, of the ATE preflight checker
(ate_preflight.py plus utils.py), together with theorems settling the
specification claims about it.  Python strings are modelled as `List Char`,
Python exceptions as an explicit `Except PyErr` result, and machine
integers as `Nat`/`Int` (no overflow is possible in the modelled code).
Every definition is translated directly from the Python source; comments
cite the source lines.
-/

/-- Convert a Lean string literal to the `List Char` representation used
throughout the embedding. -/
def chars (s : String) : List Char := s.data

/-- The Python exceptions that the modelled code can raise. -/
inductive PyErr where
  | indexError
  | keyError
  | valueError
  | attributeError
  deriving DecidableEq

instance {ε α : Type} [DecidableEq ε] [DecidableEq α] : DecidableEq (Except ε α) :=
  fun a b =>
    match a, b with
    | .ok x, .ok y => if h : x = y then .isTrue (by rw [h]) else .isFalse (by simp [h])
    | .error x, .error y => if h : x = y then .isTrue (by rw [h]) else .isFalse (by simp [h])
    | .ok _, .error _ => .isFalse (by simp)
    | .error _, .ok _ => .isFalse (by simp)

/-! ### Decimal digits

The regex class `\d` and Python `int` parsing are modelled on the ASCII
decimal digits, the only characters the probed command outputs contain. -/

/-- Is `c` an ASCII decimal digit (the characters matched by the regex `\d`)? -/
def isDig (c : Char) : Bool :=
  c == '0' || c == '1' || c == '2' || c == '3' || c == '4' ||
  c == '5' || c == '6' || c == '7' || c == '8' || c == '9'

/-- Numeric value of a decimal digit character (0 for non-digits, which the
modelled code never feeds in). -/
def charToDigit (c : Char) : Nat :=
  if c == '1' then 1 else if c == '2' then 2 else if c == '3' then 3 else
  if c == '4' then 4 else if c == '5' then 5 else if c == '6' then 6 else
  if c == '7' then 7 else if c == '8' then 8 else if c == '9' then 9 else 0

/-- Decimal digit to its character (used to model Python `str` of an int). -/
def digitToChar (d : Nat) : Char :=
  if d = 1 then '1' else if d = 2 then '2' else if d = 3 then '3' else
  if d = 4 then '4' else if d = 5 then '5' else if d = 6 then '6' else
  if d = 7 then '7' else if d = 8 then '8' else if d = 9 then '9' else '0'

/-- Value of a string of decimal digits, most significant first: the value
Python `int` returns on a digit-only string. -/
def digitsVal (s : List Char) : Nat :=
  s.foldl (fun a c => 10 * a + charToDigit c) 0

/-- Little-endian decimal digits of `n`, computed with explicit fuel so the
definition is structurally recursive (kernel-reducible).  With fuel at least
`n` this agrees with `Nat.digits 10 n`. -/
def natToRevDigits : Nat → Nat → List Nat
  | 0, _ => []
  | _ + 1, 0 => []
  | fuel + 1, n + 1 => ((n + 1) % 10) :: natToRevDigits fuel ((n + 1) / 10)

/-- Decimal rendering of a natural number, as Python `str` produces it. -/
def natDigitChars (n : Nat) : List Char :=
  if n = 0 then ['0'] else ((natToRevDigits n n).reverse.map digitToChar)

/-- Strip leading zeros from a digit string, keeping a single zero when the
string is all zeros (how `str(int(s))` normalises a digit string). -/
def stripZeros (s : List Char) : List Char :=
  match s.dropWhile (fun c => c == '0') with
  | [] => ['0']
  | r => r

/-! ### String helpers shared by the probes -/

/-- Split a list at every occurrence of the separator character, keeping
empty pieces: Python `str.split(sep)` for a one-character separator. -/
def splitOnChar (sep : Char) : List Char → List (List Char)
  | [] => [[]]
  | c :: cs =>
    if c = sep then [] :: splitOnChar sep cs
    else
      match splitOnChar sep cs with
      | r :: rs => (c :: r) :: rs
      | [] => [[c]]

/-- Join pieces with a separator character: Python `sep.join(parts)`. -/
def joinWith (sep : Char) : List (List Char) → List Char
  | [] => []
  | [p] => p
  | p :: ps => p ++ sep :: joinWith sep ps

/-- Python `int(s)` on the digit strings the probes feed it: the value of a
non-empty all-digit string, `ValueError` otherwise. -/
def parsePyInt (s : List Char) : Except PyErr Nat :=
  if s ≠ [] ∧ s.all isDig then .ok (digitsVal s) else .error .valueError

/-! ### The version comparator (ate_preflight.py lines 141-146, 212-222)

`_version_tuple` splits on "." and maps `int` over the parts; the script then
compares the resulting tuples with Python `>=`, which is lexicographic. -/

/-- `_version_tuple` (lines 141-146): `tuple(map(int, str_.split(".")))`.
A non-numeric part raises `ValueError`. -/
def version_tuple (s : List Char) : Except PyErr (List Nat) :=
  (splitOnChar '.' s).mapM parsePyInt

/-- Python `<` on tuples of ints: lexicographic, a strict prefix is smaller. -/
def tupleLT : List Nat → List Nat → Bool
  | [], [] => false
  | [], _ :: _ => true
  | _ :: _, [] => false
  | a :: as, b :: bs => a < b || (a == b && tupleLT as bs)

/-- Python `>=` on tuples of ints: `a >= b` iff `not (a < b)`. -/
def tupleGE (a b : List Nat) : Bool := !tupleLT a b

/-- The version comparison the script performs (lines 212-222 and 224-234):
parse both dotted strings with `_version_tuple` and test tuple `>=`. -/
def meetsMinimum (actual minimum : List Char) : Except PyErr Bool :=
  match version_tuple actual, version_tuple minimum with
  | .ok a, .ok b => .ok (tupleGE a b)
  | .error e, _ => .error e
  | _, .error e => .error e

/-! ### The version probe (ate_preflight.py lines 25-27, 149-155)

`_get_version` runs `RE_VERSION.search` with the pattern `(\d+\.)+\d+` and
returns the matched text, or `None` when nothing in the output matches. -/

/-- Greedy dotted-numeric segments at the start of `s`: maximal digit runs
separated by single dots, stopping when a dot is not followed by a digit.
`fuel` makes the recursion structural; it is called with `fuel = s.length`,
which always suffices. -/
def versionSegsF : Nat → List Char → List (List Char)
  | 0, _ => []
  | fuel + 1, s =>
    let d := s.takeWhile isDig
    let rest := s.dropWhile isDig
    if d = [] then []
    else if rest.head? = some '.' ∧ ((rest.drop 1).head?.map isDig).getD false = true
    then d :: versionSegsF fuel (rest.drop 1)
    else [d]

/-- The match of `(\d+\.)+\d+` anchored at the start of `s`, if any: the
regex matches here exactly when at least two dotted segments start at this
position, and greedy matching consumes all of them. -/
def matchVersionAt (s : List Char) : Option (List Char) :=
  match versionSegsF s.length s with
  | [] => none
  | [_] => none
  | segs => some (joinWith '.' segs)

/-- `RE_VERSION.search` (line 151): the leftmost match of `(\d+\.)+\d+` in
`s`, scanning start positions left to right. -/
def searchVersion : List Char → Option (List Char)
  | [] => none
  | c :: cs =>
    match matchVersionAt (c :: cs) with
    | some m => some m
    | none => searchVersion cs

/-- Does `s` contain a dotted-numeric substring?  The regex `(\d+\.)+\d+`
has a match in `s` exactly when some digit, dot, digit appear consecutively. -/
def hasDottedNumeric : List Char → Bool
  | a :: b :: c :: rest =>
    (isDig a && b == '.' && isDig c) || hasDottedNumeric (b :: c :: rest)
  | _ => false

/-- The configured Docker minimum (line 32). -/
def MIN_DOCKER : List Char := chars "17.04"

/-- The Docker version requirement check (lines 59-64 and 212-222):
`version = _get_version(output)`, then
`a, b = _version_tuple(version), _version_tuple(MIN_DOCKER)` and the verdict
is `a >= b`.  When `_get_version` returned `None`, `_version_tuple` calls
`None.split(".")`, which raises `AttributeError` and crashes the run. -/
def dockerVersionCheck (out : List Char) : Except PyErr Bool :=
  match searchVersion out with
  | none => .error .attributeError
  | some v =>
    match version_tuple v, version_tuple MIN_DOCKER with
    | .ok a, .ok b => .ok (tupleGE a b)
    | .error e, _ => .error e
    | _, .error e => .error e

/-! ### The storage probe (ate_preflight.py lines 25, 118-124)

`hardware_storage` runs `RE_NUMERIC.finditer` (pattern `\d+`) over the `df`
output and takes `max` of the integer values of all matches. -/

/-- The maximal runs of consecutive digits in `s`, in order: the matches of
`RE_NUMERIC.finditer` with pattern `\d+`.  At a digit the maximal run from
there is one match and scanning resumes after it.  `fuel` makes the
recursion structural; callers pass `s.length`. -/
def digitRunsF : Nat → List Char → List (List Char)
  | 0, _ => []
  | _ + 1, [] => []
  | fuel + 1, c :: cs =>
    if isDig c then
      ((c :: cs).takeWhile isDig) :: digitRunsF fuel ((c :: cs).dropWhile isDig)
    else digitRunsF fuel cs

/-- The matches of `RE_NUMERIC.finditer` over `s`. -/
def digitRuns (s : List Char) : List (List Char) := digitRunsF s.length s

/-- `hardware_storage` (lines 118-124): the numeric maximum over every run
of digits in the output.  `max` of an empty sequence raises `ValueError`. -/
def hardware_storage (out : List Char) : Except PyErr Nat :=
  match (digitRuns out).map digitsVal with
  | [] => .error .valueError
  | v :: vs => .ok (vs.foldl max v)

/-! ### The RAM probe (ate_preflight.py lines 97-115)

`hardware_ram` strips the "Mem:" label, splits the output into stripped
lines, deletes the last line, zips the space-separated fields of the first
two lines into a dict, and returns the value under "total". -/

/-- Python `str.replace("Mem:", "")`: delete every occurrence, scanning left
to right.  `fuel` makes the recursion structural; callers pass `s.length`. -/
def replaceMemF : Nat → List Char → List Char
  | 0, s => s
  | _ + 1, [] => []
  | fuel + 1, c :: cs =>
    if c = 'M' ∧ cs.take 3 = ['e', 'm', ':'] then replaceMemF fuel (cs.drop 3)
    else c :: replaceMemF fuel cs

/-- `free.replace("Mem:", "")` (line 109). -/
def replaceMem (s : List Char) : List Char := replaceMemF s.length s

/-- Python `str.splitlines()` for newline-terminated text: no entry is
produced after a terminal newline.  (The probed output separates lines with
a plain newline, which is what this models.) -/
def pySplitLines (s : List Char) : List (List Char) :=
  if s = [] then []
  else splitOnChar '\n' (if s.getLast? = some '\n' then s.dropLast else s)

/-- Is `c` one of the whitespace characters Python `str.strip()` removes
(the ones that can occur in the probed output)? -/
def isSpaceChar (c : Char) : Bool :=
  c == ' ' || c == '\t' || c == '\n' || c == '\r'

/-- Python `str.strip()`: drop whitespace from both ends. -/
def pyStrip (s : List Char) : List Char :=
  ((s.dropWhile isSpaceChar).reverse.dropWhile isSpaceChar).reverse

/-- `re.split(" +", s)` (RE_SPACE, lines 26 and 113): split on maximal runs
of spaces, keeping empty pieces at the ends.  `fuel` makes the recursion
structural; callers pass `s.length`. -/
def splitSpF : Nat → List Char → List (List Char)
  | 0, s => [s]
  | _ + 1, [] => [[]]
  | fuel + 1, c :: cs =>
    if c = ' ' then [] :: splitSpF fuel (cs.dropWhile (fun x => x = ' '))
    else
      match splitSpF fuel cs with
      | r :: rs => (c :: r) :: rs
      | [] => [[c]]

/-- `RE_SPACE.split(s)` with `RE_SPACE = re.compile(" +")`. -/
def splitSp (s : List Char) : List (List Char) := splitSpF s.length s

/-- Lookup in the dict a Python dict comprehension builds from an ordered
list of key-value pairs: a later pair with the same key overrides an
earlier one, so the rightmost binding wins. -/
def dictGet (kvs : List (List Char × Nat)) (k : List Char) : Option Nat :=
  (kvs.reverse.find? (fun p => p.1 == k)).map (fun p => p.2)

/-- `hardware_ram` (lines 97-115): strip the "Mem:" label, split into
stripped lines, `del` the last line (an `IndexError` on an empty list), zip
the space-split fields of lines 0 and 1 into a dict with `int` values (a
`ValueError` on a non-numeric value), and return the value under "total"
(a `KeyError` when that column is absent). -/
def hardware_ram (out : List Char) : Except PyErr Nat :=
  let lines := (pySplitLines (replaceMem out)).map pyStrip
  match lines with
  | [] => .error .indexError
  | _ :: _ =>
    match lines.dropLast with
    | [] => .error .indexError
    | [_] => .error .indexError
    | l0 :: l1 :: _ =>
      match (List.zip (splitSp l0) (splitSp l1)).mapM
          (fun kv => (parsePyInt kv.2).map (fun n => (kv.1, n))) with
      | .error e => .error e
      | .ok kvs =>
        match dictGet kvs (chars "total") with
        | none => .error .keyError
        | some v => .ok v

/-! ### The port checker (ate_preflight.py lines 130-135)

`port_open` builds a fresh TCP socket and calls `connect_ex`, which returns
an error number instead of raising.  The script never calls `settimeout`,
so the socket stays in Python's default blocking mode with no timeout. -/

/-- The observable configuration of a Python socket object. -/
structure PySocket where
  family : Nat
  sockType : Nat
  timeout : Option Nat
  deriving DecidableEq

/-- `socket.socket(socket.AF_INET, socket.SOCK_STREAM)` (line 132): a fresh
socket; a fresh Python socket has no timeout set (blocking mode), and
`port_open` never changes that. -/
def socket_socket : PySocket := { family := 2, sockType := 1, timeout := none }

/-- `port_open(port)` (lines 130-135): call `connect_ex(("127.0.0.1", port))`
on the fresh socket and return its error number.  The kernel behaviour of
`connect_ex` is abstracted as a function argument; `port_open` returns its
result unchanged and cannot raise. -/
def port_open (connectEx : PySocket → List Char × Nat → Int) (port : Nat) : Int :=
  connectEx socket_socket (chars "127.0.0.1", port)

/-- The classification of a `connect_ex` result in the port table
(lines 312-315): "Open" for 0, "Closed" for anything else. -/
def portStatus (check : Int) : List Char :=
  if check = 0 then chars "Open" else chars "Closed"

/-! ### The main run (ate_preflight.py lines 184-321)

The `__main__` block first gates on `docker_installed()`, then evaluates the
seven requirement checks in a fixed order, accumulating `failures`, prints
the requirements table and (when `failures` is nonzero) a summary, and
finally prints the port table.  The seven pass/fail verdicts are the only
data the accumulation logic consumes, so the run is modelled as a function
of the docker-presence flag, the seven verdicts, and the `connect_ex`
behaviour. -/

/-- The result of spawning an external command (utils.py):
either a completed process or a `FileNotFoundError` from `subprocess.run`. -/
inductive SpawnResult where
  | completed (code : Int) (out err : List Char)
  | fileNotFound

/-- `docker_installed()` (lines 41-49): run `docker --help`, catch
`FileNotFoundError` and return `False`; any completed process counts as
installed. -/
def docker_installed : SpawnResult → Bool
  | .fileNotFound => false
  | .completed _ _ _ => true

/-- The seven requirement verdicts, in the evaluation order of the script:
Docker logging, Docker version, Compose version, SELinux enforcement,
CPU cores, RAM, storage. -/
structure Checks where
  logging : Bool
  dockerV : Bool
  composeV : Bool
  selinux : Bool
  cores : Bool
  ram : Bool
  storage : Bool
  deriving DecidableEq

/-- The verdicts as a list, in evaluation order. -/
def Checks.toList (c : Checks) : List Bool :=
  [c.logging, c.dockerV, c.composeV, c.selinux, c.cores, c.ram, c.storage]

/-- The requirement labels, in evaluation order (lines 203, 215, 227, 238,
249, 260, 272). -/
def checkLabels : List (List Char) :=
  [chars "Docker logging", chars "Docker version", chars "Compose version",
   chars "SELinux enforcement", chars "Hardware: CPU cores",
   chars "Hardware: RAM", chars "Hardware: Storage"]

/-- The last column of a requirement row: "Passed" or "FAILED". -/
def verdict (pass : Bool) : List Char :=
  if pass then chars "Passed" else chars "FAILED"

/-- One requirement block of the script (each of the seven blocks in lines
201-279): append the row to the table and increment `failures` when the
check failed. -/
def checkStep (st : Nat × List (List Char × List Char)) (item : List Char × Bool) :
    Nat × List (List Char × List Char) :=
  (if item.2 then st.1 else st.1 + 1, st.2 ++ [(item.1, verdict item.2)])

/-- Run the seven requirement blocks in order, starting from
`failures = 0` and an empty table (lines 185-279). -/
def evalBlocks (items : List (List Char × Bool)) :
    Nat × List (List Char × List Char) :=
  items.foldl checkStep (0, [])

/-- `_failures_plural` (lines 166-170). -/
def failuresPlural (failures : Nat) : List Char :=
  if failures = 1 then chars "FAILURE" else chars "FAILURES"

/-- Everything the run prints and how it exits. -/
structure RunReport where
  exitCode : Nat
  reqTablePrinted : Bool
  reqRows : List (List Char × List Char)
  failureCount : Nat
  summaryLines : List (List Char)
  portTablePrinted : Bool
  portRows : List (List Char × Nat × List Char)

/-- The fixed port list (lines 292-296). -/
def portList : List (List Char × Nat) :=
  [(chars "SSH", 22), (chars "HTTP", 80), (chars "HTTPS", 443)]

/-- The `__main__` block (lines 184-321), as a function of the
docker-presence flag, the seven requirement verdicts and the `connect_ex`
behaviour.  A missing docker command prints an error and exits 1 before any
table is set up; otherwise the seven blocks run, the requirements table and
(if `failures` is nonzero) the summary are printed, the port table is
printed, and the script falls off the end, exiting 0. -/
def runMain (installed : Bool) (c : Checks)
    (connectEx : PySocket → List Char × Nat → Int) : RunReport :=
  if installed = false then
    { exitCode := 1
      reqTablePrinted := false
      reqRows := []
      failureCount := 0
      summaryLines := [chars "ERROR: The Docker command is unavailable.  Ensure that Docker is installed on the system."]
      portTablePrinted := false
      portRows := [] }
  else
    let st := evalBlocks (checkLabels.zip c.toList)
    let failures := st.1
    let summary :=
      if failures ≠ 0 then
        [natDigitChars failures ++ ' ' :: failuresPlural failures,
         chars "Please contact Anaconda sales..."]
      else []
    { exitCode := 0
      reqTablePrinted := true
      reqRows := st.2
      failureCount := failures
      summaryLines := summary
      portTablePrinted := true
      portRows := portList.map
        (fun p => (p.1, p.2, portStatus (port_open connectEx p.2))) }

/-- A well-formed header token for the RAM table: nonempty, printable ASCII
with no space (so line and field splitting keep it whole) and no colon (so
the "Mem:" replacement cannot touch it). -/
def headerTok (p : List Char) : Prop :=
  p ≠ [] ∧ ∀ c ∈ p, 32 < c.toNat ∧ c.toNat < 127 ∧ c ≠ ':'

instance : DecidablePred headerTok := fun p => by
  unfold headerTok
  infer_instance

/-- A `free`-style output built from header tokens and values: the header
line, the values line, and a trailing blank line. -/
def ramInput (hs : List (List Char)) (vs : List Nat) : List Char :=
  joinWith ' ' hs ++ '\n' :: (joinWith ' ' (vs.map natDigitChars) ++ ['\n', '\n'])

/-- C1 counterexample: the claim asserts `meetsMinimum("17.3", "17.04")` is
true, but `_version_tuple` parses "04" to the integer 4 and the tuple
comparison (17, 3) >= (17, 4) is false, so the code returns false. -/
theorem meetsMinimum_17_3_counterexample :
    ¬ meetsMinimum (chars "17.3") (chars "17.04") = .ok true ∧
      meetsMinimum (chars "17.3") (chars "17.04") = .ok false := by
  constructor
  · intro h
    exact absurd h (by decide)
  · decide

/-- C1 (amended): with versions compared by parsing into integer tuples and
testing tuple `>=`, `meetsMinimum("17.04", "17.04")` is true and
`meetsMinimum("16.99", "17.04")` is false as claimed, but
`meetsMinimum("17.3", "17.04")` is false, since "04" parses to 4 and
(17, 3) < (17, 4) lexicographically. -/
theorem meetsMinimum_examples :
    meetsMinimum (chars "17.04") (chars "17.04") = .ok true ∧
    meetsMinimum (chars "17.3") (chars "17.04") = .ok false ∧
    meetsMinimum (chars "16.99") (chars "17.04") = .ok false := by
  decide

/-- C3: for every combination of the seven requirement verdicts, the
accumulated failure count equals the number of FAILED rows in the
requirements table, and the port checks (the `connect_ex` behaviour) never
change the failure count. -/
theorem failureCount_invariant (c : Checks)
    (ce ce' : PySocket → List Char × Nat → Int) :
    (runMain true c ce).failureCount =
      (runMain true c ce).reqRows.countP (fun r => r.2 == chars "FAILED") ∧
    (runMain true c ce).failureCount = (runMain true c ce').failureCount := by
  obtain ⟨l, d, co, s, cr, r, st⟩ := c
  refine ⟨?_, rfl⟩
  cases l <;> cases d <;> cases co <;> cases s <;> cases cr <;> cases r <;>
    cases st <;> rfl

/-- C4: when the docker spawn raises file-not-found, the run prints an error
and exits 1 with neither table printed; when the spawn completes at all, the
run prints both tables and exits 0 for every combination of requirement
verdicts. -/
theorem dependency_gate_exit (c : Checks)
    (ce' : PySocket → List Char × Nat → Int) :
    ((runMain (docker_installed .fileNotFound) c ce').exitCode = 1 ∧
     (runMain (docker_installed .fileNotFound) c ce').reqTablePrinted = false ∧
     (runMain (docker_installed .fileNotFound) c ce').portTablePrinted = false ∧
     (runMain (docker_installed .fileNotFound) c ce').summaryLines =
       [chars "ERROR: The Docker command is unavailable.  Ensure that Docker is installed on the system."]) ∧
    ∀ code out err,
      (runMain (docker_installed (.completed code out err)) c ce').exitCode = 0 ∧
      (runMain (docker_installed (.completed code out err)) c ce').reqTablePrinted = true ∧
      (runMain (docker_installed (.completed code out err)) c ce').portTablePrinted = true :=
  ⟨⟨rfl, rfl, rfl, rfl⟩, fun _ _ _ => ⟨rfl, rfl, rfl⟩⟩

/-- The summary section of the report, written in terms of the final failure
count: the script prints it exactly when `failures` is nonzero
(lines 285-289). -/
theorem runMain_summary (c : Checks) (ce : PySocket → List Char × Nat → Int) :
    (runMain true c ce).summaryLines =
      (if (runMain true c ce).failureCount ≠ 0 then
        [natDigitChars (runMain true c ce).failureCount ++
           ' ' :: failuresPlural (runMain true c ce).failureCount,
         chars "Please contact Anaconda sales..."]
      else []) := rfl

/-- C9: the failure summary is printed iff the failure count is nonzero, its
first line is the count followed by the singular/plural noun, the noun is
"FAILURE" exactly when the count is 1, and the runs with exactly one and
exactly three failing checks print "1 FAILURE" and "3 FAILURES". -/
theorem failure_summary_format :
    (∀ (c : Checks) (ce : PySocket → List Char × Nat → Int),
      ((runMain true c ce).summaryLines ≠ [] ↔
        (runMain true c ce).failureCount ≠ 0) ∧
      ((runMain true c ce).failureCount ≠ 0 →
        (runMain true c ce).summaryLines.head? =
          some (natDigitChars (runMain true c ce).failureCount ++
            ' ' :: failuresPlural (runMain true c ce).failureCount))) ∧
    (∀ n, failuresPlural n = chars "FAILURE" ↔ n = 1) ∧
    (∀ ce, (runMain true ⟨false, true, true, true, true, true, true⟩
      ce).summaryLines.head? = some (chars "1 FAILURE")) ∧
    (∀ ce, (runMain true ⟨false, false, false, true, true, true, true⟩
      ce).summaryLines.head? = some (chars "3 FAILURES")) := by
  refine ⟨fun c ce => ?_, fun n => ?_, fun ce => rfl, fun ce => rfl⟩
  · rw [runMain_summary]
    by_cases h : (runMain true c ce).failureCount = 0
    · simp [h]
    · simp [h]
  · unfold failuresPlural
    by_cases h : n = 1
    · simp [h]
    · rw [if_neg h]
      constructor
      · intro heq
        exact absurd heq (by decide)
      · intro h1
        exact absurd h1 h

/-- C9 witness: instantiating the summary-format theorem at the run with
three failing checks. -/
theorem failure_summary_format_witness :
    (runMain true ⟨false, false, false, true, true, true, true⟩
      (fun _ _ => 0)).summaryLines.head? =
      some (natDigitChars (runMain true ⟨false, false, false, true, true, true, true⟩
          (fun _ _ => 0)).failureCount ++
        ' ' :: failuresPlural (runMain true ⟨false, false, false, true, true, true, true⟩
          (fun _ _ => 0)).failureCount) :=
  (failure_summary_format.1 ⟨false, false, false, true, true, true, true⟩
    (fun _ _ => 0)).2 (by decide)

/-- C5 counterexample: the claim asserts the port check applies a short
bounded timeout, but `port_open` uses a fresh socket and never calls
`settimeout`, so the socket it connects with has no timeout at all. -/
theorem port_open_no_timeout_counterexample :
    socket_socket.timeout = none ∧ ¬ ∃ t, socket_socket.timeout = some t := by
  refine ⟨rfl, ?_⟩
  rintro ⟨t, h⟩
  simp [socket_socket] at h

/-- C5 (amended): `port_open` calls `connect_ex` on a socket with no timeout
configured (Python default blocking mode), returns the error number rather
than raising, and the run classifies every nonzero result as "Closed" and
zero as "Open". -/
theorem port_open_amended :
    (∀ (ce : PySocket → List Char × Nat → Int) port,
      port_open ce port = ce socket_socket (chars "127.0.0.1", port)) ∧
    socket_socket.timeout = none ∧
    (∀ r : Int, r ≠ 0 → portStatus r = chars "Closed") ∧
    portStatus 0 = chars "Open" := by
  refine ⟨fun ce port => rfl, rfl, fun r hr => ?_, rfl⟩
  unfold portStatus
  rw [if_neg hr]

/-- C5 witness: instantiating the amended port theorem at a concrete nonzero
connect result. -/
theorem port_open_amended_witness : portStatus 111 = chars "Closed" :=
  port_open_amended.2.2.1 111 (by decide)

/-! ### Lemmas about the version regex (claim C2) -/

/-- A shorter suffix of a string without a dotted-numeric substring has none
either. -/
theorem hasDotted_cons {c : Char} {cs : List Char}
    (h : hasDottedNumeric (c :: cs) = false) : hasDottedNumeric cs = false := by
  match cs with
  | [] => rfl
  | [x] => rfl
  | b :: d :: rest =>
    have h' : ((isDig c && b == '.' && isDig d) ||
        hasDottedNumeric (b :: d :: rest)) = false := h
    exact (Bool.or_eq_false_iff.mp h').2

/-- Extending a string with a dotted-numeric substring on the left keeps it. -/
theorem hasDotted_tail {x : Char} {t : List Char}
    (h : hasDottedNumeric t = true) : hasDottedNumeric (x :: t) = true := by
  match t with
  | [] => simp [hasDottedNumeric] at h
  | [a] => simp [hasDottedNumeric] at h
  | a :: b :: rest =>
    show ((isDig x && a == '.' && isDig b) ||
      hasDottedNumeric (a :: b :: rest)) = true
    rw [h, Bool.or_true]

/-- A digit, a dot and a digit in consecutive positions witness a
dotted-numeric substring. -/
theorem hasDotted_of_decomp (p q : List Char) (a b : Char)
    (ha : isDig a = true) (hb : isDig b = true) :
    hasDottedNumeric (p ++ a :: '.' :: b :: q) = true := by
  induction p with
  | nil =>
    show ((isDig a && '.' == '.' && isDig b) ||
      hasDottedNumeric ('.' :: b :: q)) = true
    simp [ha, hb]
  | cons x p ih => exact hasDotted_tail ih

/-- Without a dotted-numeric substring, the segment scanner finds at most
one digit segment at any position. -/
theorem versionSegs_short (f : Nat) (s : List Char)
    (h : hasDottedNumeric s = false) :
    versionSegsF f s = [] ∨ ∃ d, versionSegsF f s = [d] := by
  cases f with
  | zero => exact .inl rfl
  | succ f =>
    simp only [versionSegsF]
    by_cases hd : s.takeWhile isDig = []
    · rw [if_pos hd]
      exact .inl rfl
    · rw [if_neg hd]
      by_cases h2 : (s.dropWhile isDig).head? = some '.' ∧
          (((s.dropWhile isDig).drop 1).head?.map isDig).getD false = true
      · exfalso
        obtain ⟨hdot, hdig⟩ := h2
        rcases hrest : s.dropWhile isDig with _ | ⟨c, r⟩
        · rw [hrest] at hdot
          exact Option.noConfusion hdot
        · rw [hrest] at hdot hdig
          have hc : c = '.' := Option.some_injective _ hdot
          subst hc
          rcases r with _ | ⟨b, r'⟩
          · exact Bool.noConfusion hdig
          · have hb : isDig b = true := hdig
            have hdecomp : s = s.takeWhile isDig ++ '.' :: b :: r' := by
              conv_lhs => rw [← List.takeWhile_append_dropWhile (p := isDig) (l := s)]
              rw [hrest]
            have hlast : (s.takeWhile isDig).getLast hd ∈ s.takeWhile isDig :=
              List.getLast_mem hd
            have hlastdig : isDig ((s.takeWhile isDig).getLast hd) = true :=
              List.mem_takeWhile_imp hlast
            have hsplit : s.takeWhile isDig =
                (s.takeWhile isDig).dropLast ++ [(s.takeWhile isDig).getLast hd] :=
              (List.dropLast_append_getLast hd).symm
            have htrue : hasDottedNumeric s = true := by
              rw [hdecomp, hsplit, List.append_assoc]
              exact hasDotted_of_decomp _ _ _ _ hlastdig hb
            rw [htrue] at h
            exact Bool.noConfusion h
      · rw [if_neg h2]
        exact .inr ⟨s.takeWhile isDig, rfl⟩

/-- Without a dotted-numeric substring, the anchored regex match fails. -/
theorem matchVersionAt_none (s : List Char) (h : hasDottedNumeric s = false) :
    matchVersionAt s = none := by
  unfold matchVersionAt
  rcases versionSegs_short s.length s h with h0 | ⟨d, h1⟩
  · rw [h0]
  · rw [h1]

/-- Without a dotted-numeric substring anywhere, `RE_VERSION.search` returns
`None`. -/
theorem searchVersion_none (s : List Char) (h : hasDottedNumeric s = false) :
    searchVersion s = none := by
  induction s with
  | nil => rfl
  | cons c cs ih =>
    show (match matchVersionAt (c :: cs) with
      | some m => some m
      | none => searchVersion cs) = none
    rw [matchVersionAt_none _ h]
    exact ih (hasDotted_cons h)

/-- C2: for a version-probe output with no dotted-numeric substring, the
fact is indeed `None` — but the run then crashes: `_version_tuple(None)`
raises `AttributeError` instead of producing a FAILED row. -/
theorem docker_version_no_match_crash :
    searchVersion (chars "Docker version unknown, build 20 10") = none ∧
    dockerVersionCheck (chars "Docker version unknown, build 20 10") =
      .error .attributeError ∧
    ∀ out, hasDottedNumeric out = false →
      searchVersion out = none ∧
      dockerVersionCheck out = .error .attributeError := by
  have main : ∀ out, hasDottedNumeric out = false →
      searchVersion out = none ∧
      dockerVersionCheck out = .error .attributeError := by
    intro out h
    have hs := searchVersion_none out h
    refine ⟨hs, ?_⟩
    unfold dockerVersionCheck
    rw [hs]
  have hconc := main (chars "Docker version unknown, build 20 10") (by decide)
  exact ⟨hconc.1, hconc.2, main⟩

/-- C2 witness: instantiating the crash theorem at another concrete
version-probe output without a dotted-numeric substring. -/
theorem docker_version_no_match_crash_witness :
    searchVersion (chars "Docker version dev, build master") = none ∧
    dockerVersionCheck (chars "Docker version dev, build master") =
      .error .attributeError :=
  docker_version_no_match_crash.2.2 (chars "Docker version dev, build master")
    (by decide)

/-! ### Lemmas about the storage maximum (claim C8) -/

/-- The left fold of `max` lands on one of its inputs. -/
theorem foldl_max_mem : ∀ (vs : List Nat) (v : Nat), vs.foldl max v ∈ v :: vs := by
  intro vs
  induction vs with
  | nil => intro v; exact List.mem_singleton.mpr rfl
  | cons x xs ih =>
    intro v
    have h := ih (max v x)
    show List.foldl max (max v x) xs ∈ v :: x :: xs
    rcases List.mem_cons.mp h with h1 | h1
    · rw [h1]
      rcases max_choice v x with hm | hm <;> rw [hm]
      · exact List.mem_cons_self _ _
      · exact List.mem_cons_of_mem _ (List.mem_cons_self _ _)
    · exact List.mem_cons_of_mem _ (List.mem_cons_of_mem _ h1)

/-- The starting value bounds the left fold of `max` from below. -/
theorem le_foldl_max : ∀ (vs : List Nat) (v : Nat), v ≤ vs.foldl max v := by
  intro vs
  induction vs with
  | nil => intro v; exact le_refl v
  | cons y ys ih => intro v; exact le_trans (le_max_left v y) (ih (max v y))

/-- Every list element bounds the left fold of `max` from below. -/
theorem mem_le_foldl_max : ∀ (vs : List Nat) (v x : Nat),
    x ∈ vs → x ≤ vs.foldl max v := by
  intro vs
  induction vs with
  | nil => intro v x hx; exact absurd hx (List.not_mem_nil x)
  | cons y ys ih =>
    intro v x hx
    show x ≤ List.foldl max (max v y) ys
    rcases List.mem_cons.mp hx with h | h
    · rw [h]; exact le_trans (le_max_right v y) (le_foldl_max ys (max v y))
    · exact ih (max v y) x h

/-- A string containing a digit has at least one digit run (fueled form). -/
theorem digitRunsF_ne_nil : ∀ (f : Nat) (s : List Char), s.length ≤ f →
    (∃ c ∈ s, isDig c = true) → digitRunsF f s ≠ [] := by
  intro f
  induction f with
  | zero =>
    intro s hf hex
    rcases s with _ | ⟨c, cs⟩
    · rcases hex with ⟨a, ha, _⟩
      exact absurd ha (List.not_mem_nil a)
    · simp at hf
  | succ f ih =>
    intro s hf hex
    rcases s with _ | ⟨c, cs⟩
    · rcases hex with ⟨a, ha, _⟩
      exact absurd ha (List.not_mem_nil a)
    · by_cases hc : isDig c = true
      · rw [digitRunsF, if_pos hc]
        exact List.cons_ne_nil _ _
      · rw [digitRunsF, if_neg hc]
        rcases hex with ⟨a, ha, hdig⟩
        rcases List.mem_cons.mp ha with h | h
        · rw [h] at hdig
          exact absurd hdig hc
        · refine ih cs ?_ ⟨a, h, hdig⟩
          simp only [List.length_cons] at hf
          omega

/-- A string containing a digit has at least one digit run. -/
theorem digitRuns_ne_nil (s : List Char)
    (hex : ∃ c ∈ s, isDig c = true) : digitRuns s ≠ [] :=
  digitRunsF_ne_nil s.length s (le_refl _) hex

/-- C8: for every output containing a digit, `hardware_storage` returns the
numeric maximum over all digit runs in the output, and on the concrete
example with 1024, 2000000 and 500 it returns 2000000. -/
theorem storage_max :
    (∀ out, (∃ c ∈ out, isDig c = true) →
      ∃ m, hardware_storage out = .ok m ∧
        m ∈ (digitRuns out).map digitsVal ∧
        ∀ x ∈ (digitRuns out).map digitsVal, x ≤ m) ∧
    hardware_storage (chars "Filesystem blocks: 1024 2000000 500") =
      .ok 2000000 := by
  constructor
  · intro out h
    have hne : digitRuns out ≠ [] := digitRuns_ne_nil out h
    rcases hruns : (digitRuns out).map digitsVal with _ | ⟨v, vs⟩
    · exact absurd (List.map_eq_nil_iff.mp hruns) hne
    · refine ⟨vs.foldl max v, ?_, ?_, ?_⟩
      · unfold hardware_storage
        rw [hruns]
      · exact foldl_max_mem vs v
      · intro x hx
        rcases List.mem_cons.mp hx with h1 | h1
        · rw [h1]; exact le_foldl_max vs v
        · exact mem_le_foldl_max vs v x h1
  · decide

/-- C8 witness: instantiating the storage theorem at a concrete `df`-style
output. -/
theorem storage_max_witness :
    ∃ m, hardware_storage (chars "/dev/sda1 1024 2000000 500 /") = .ok m ∧
      m ∈ (digitRuns (chars "/dev/sda1 1024 2000000 500 /")).map digitsVal ∧
      ∀ x ∈ (digitRuns (chars "/dev/sda1 1024 2000000 500 /")).map digitsVal,
        x ≤ m :=
  storage_max.1 (chars "/dev/sda1 1024 2000000 500 /") (by decide)

set_option maxRecDepth 20000 in
set_option maxHeartbeats 1000000 in
/-- C10: the RAM probe deletes the last split line unconditionally, so any
output that splits into fewer than three lines produces an `IndexError`; in
particular a "total"-header line followed by a single values line with no
third line fails instead of returning the value under "total". -/
theorem ram_two_line_index_error :
    (∀ out, (pySplitLines (replaceMem out)).length < 3 →
      hardware_ram out = .error .indexError) ∧
    hardware_ram (chars "              total        used        free      shared  buff/cache   available\nMem:        8007488     2204612      223096      168612     5579780     5331372") =
      .error .indexError := by
  constructor
  · intro out h
    have hlen : ((pySplitLines (replaceMem out)).map pyStrip).length < 3 := by
      rw [List.length_map]; exact h
    unfold hardware_ram
    rcases hL : (pySplitLines (replaceMem out)).map pyStrip with _ | ⟨a, _ | ⟨b, _ | ⟨c, t⟩⟩⟩
    · rfl
    · rfl
    · rfl
    · rw [hL] at hlen
      simp at hlen
      omega
  · decide

/-- C10 witness: instantiating the index-error theorem at a minimal
two-line output. -/
theorem ram_two_line_index_error_witness :
    hardware_ram (chars "total\n8007488\n") = .error .indexError :=
  ram_two_line_index_error.1 (chars "total\n8007488\n") (by decide)

/-! ### Lemmas about digit characters and decimal rendering (claims C6, C7) -/

/-- The ten possible values of a digit character. -/
theorem isDig_cases {c : Char} (h : isDig c = true) :
    c = '0' ∨ c = '1' ∨ c = '2' ∨ c = '3' ∨ c = '4' ∨
    c = '5' ∨ c = '6' ∨ c = '7' ∨ c = '8' ∨ c = '9' := by
  unfold isDig at h
  simp only [Bool.or_eq_true, beq_iff_eq] at h
  tauto

/-- Digit characters have digit values below ten. -/
theorem charToDigit_lt_ten {c : Char} (h : isDig c = true) : charToDigit c < 10 := by
  rcases isDig_cases h with h | h | h | h | h | h | h | h | h | h <;> subst h <;> decide

/-- Rendering the value of a digit character gives the character back. -/
theorem digitToChar_charToDigit {c : Char} (h : isDig c = true) :
    digitToChar (charToDigit c) = c := by
  rcases isDig_cases h with h | h | h | h | h | h | h | h | h | h <;> subst h <;> decide

/-- Reading back the character of a digit below ten gives the digit back. -/
theorem charToDigit_digitToChar {d : Nat} (h : d < 10) :
    charToDigit (digitToChar d) = d := by
  interval_cases d <;> decide

/-- The character of a digit below ten is a digit character. -/
theorem isDig_digitToChar {d : Nat} (h : d < 10) : isDig (digitToChar d) = true := by
  interval_cases d <;> decide

/-- A nonzero digit character has a positive value. -/
theorem charToDigit_pos {c : Char} (h : isDig c = true) (h0 : c ≠ '0') :
    1 ≤ charToDigit c := by
  rcases isDig_cases h with h | h | h | h | h | h | h | h | h | h <;> subst h
  · exact absurd rfl h0
  all_goals decide

/-- The fueled digit expansion agrees with `Nat.digits 10` once the fuel
covers the number. -/
theorem natToRevDigits_eq_digits : ∀ (f n : Nat), n ≤ f →
    natToRevDigits f n = Nat.digits 10 n := by
  intro f
  induction f with
  | zero =>
    intro n hn
    have h0 : n = 0 := Nat.le_zero.mp hn
    subst h0
    simp [natToRevDigits]
  | succ f ih =>
    intro n hn
    cases n with
    | zero => simp [natToRevDigits]
    | succ n =>
      rw [natToRevDigits, Nat.digits_def' (by norm_num : (1 : Nat) < 10) (Nat.succ_pos n)]
      rw [ih ((n + 1) / 10) (by
        have := Nat.div_lt_self (Nat.succ_pos n) (by norm_num : (1 : Nat) < 10)
        omega)]

/-- The digit-string fold equals `Nat.ofDigits 10` of the reversed digit
values. -/
theorem digitsVal_eq_ofDigits : ∀ (s : List Char),
    digitsVal s = Nat.ofDigits 10 ((s.map charToDigit).reverse) := by
  intro s
  induction s using List.reverseRecOn with
  | nil => rfl
  | append_singleton as a ih =>
    rw [digitsVal, List.foldl_append]
    rw [List.map_append, List.reverse_append]
    simp only [List.map_cons, List.map_nil, List.reverse_cons, List.reverse_nil,
      List.nil_append, List.singleton_append, List.foldl_cons, List.foldl_nil]
    rw [Nat.ofDigits_cons]
    have ihv : as.foldl (fun a c => 10 * a + charToDigit c) 0 =
        Nat.ofDigits 10 ((as.map charToDigit).reverse) := ih
    rw [ihv]
    ring

/-- The starting accumulator bounds the digit fold from below. -/
theorem le_foldl_digits : ∀ (s : List Char) (a : Nat),
    a ≤ s.foldl (fun x c => 10 * x + charToDigit c) a := by
  intro s
  induction s with
  | nil => intro a; exact le_refl a
  | cons c cs ih =>
    intro a
    calc a ≤ 10 * a + charToDigit c := by omega
    _ ≤ _ := ih (10 * a + charToDigit c)

/-- A digit string with a nonzero leading digit has a positive value. -/
theorem digitsVal_pos {c : Char} (s : List Char) (h : isDig c = true)
    (h0 : c ≠ '0') : 0 < digitsVal (c :: s) := by
  have h1 : 1 ≤ charToDigit c := charToDigit_pos h h0
  have h2 : charToDigit c ≤
      s.foldl (fun x c => 10 * x + charToDigit c) (charToDigit c) :=
    le_foldl_digits s (charToDigit c)
  have h3 : digitsVal (c :: s) =
      s.foldl (fun x c => 10 * x + charToDigit c) (charToDigit c) := by
    rw [digitsVal, List.foldl_cons]
    norm_num
  omega

/-- A leading zero character does not change the parsed value. -/
theorem digitsVal_cons_zero (s : List Char) : digitsVal ('0' :: s) = digitsVal s := by
  have h0 : charToDigit '0' = 0 := by decide
  rw [digitsVal, digitsVal, List.foldl_cons, h0]

/-- Dropping leading zero characters does not change the parsed value. -/
theorem digitsVal_dropWhile_zero : ∀ (s : List Char),
    digitsVal s = digitsVal (s.dropWhile (fun c => c == '0')) := by
  intro s
  induction s with
  | nil => rfl
  | cons c cs ih =>
    by_cases hc : c = '0'
    · subst hc
      rw [List.dropWhile_cons_of_pos (by simp), digitsVal_cons_zero]
      exact ih
    · rw [List.dropWhile_cons_of_neg (by simp [hc])]

/-- An all-zero digit string parses to zero. -/
theorem digitsVal_all_zero : ∀ (s : List Char),
    (∀ c ∈ s, c = '0') → digitsVal s = 0 := by
  intro s
  induction s with
  | nil => intro _; rfl
  | cons c cs ih =>
    intro h
    have hc : c = '0' := h c (List.mem_cons_self c cs)
    subst hc
    rw [digitsVal_cons_zero]
    exact ih (fun c hc => h c (List.mem_cons_of_mem _ hc))

/-- Rendering the value of a non-empty all-digit string yields the string
with its leading zeros stripped (Python `str(int(s))`). -/
theorem natDigitChars_digitsVal (s : List Char)
    (hdig : ∀ c ∈ s, isDig c = true) :
    natDigitChars (digitsVal s) = stripZeros s := by
  rcases ht : s.dropWhile (fun c => c == '0') with _ | ⟨c, r⟩
  · -- all characters are zeros
    have hz : ∀ c ∈ s, c = '0' := by
      intro c hc
      have hTW : s.takeWhile (fun c => c == '0') = s := by
        have h2 := List.takeWhile_append_dropWhile (p := fun c => c == '0') (l := s)
        rw [ht, List.append_nil] at h2
        exact h2
      have hmem : c ∈ s.takeWhile (fun c => c == '0') := by
        rw [hTW]; exact hc
      have h3 := List.mem_takeWhile_imp hmem
      simpa using h3
    rw [digitsVal_all_zero s hz]
    unfold natDigitChars stripZeros
    rw [ht]
    rfl
  · -- a nonzero digit leads after stripping
    have hcz : ¬ (c == '0') = true := by
      have := List.head?_dropWhile_not (fun c => c == '0') s
      rw [ht] at this
      simp only [List.head?_cons] at this
      simp [this]
    have hc0 : c ≠ '0' := by simpa using hcz
    have hsub : ∀ x ∈ c :: r, x ∈ s := by
      intro x hx
      exact (List.dropWhile_sublist (fun c => c == '0')).mem (ht ▸ hx)
    have hcdig : isDig c = true := hdig c (hsub c (List.mem_cons_self c r))
    have hvpos : 0 < digitsVal (c :: r) := digitsVal_pos r hcdig hc0
    have hval : digitsVal s = digitsVal (c :: r) := by
      rw [digitsVal_dropWhile_zero s, ht]
    have hL : Nat.digits 10 (digitsVal (c :: r)) =
        ((c :: r).map charToDigit).reverse := by
      rw [digitsVal_eq_ofDigits (c :: r)]
      refine Nat.digits_ofDigits 10 (by norm_num) _ ?_ ?_
      · intro l hl
        rw [List.mem_reverse] at hl
        obtain ⟨x, hx, rfl⟩ := List.mem_map.mp hl
        exact charToDigit_lt_ten (hdig x (hsub x hx))
      · intro hLne
        have hrw : ((c :: r).map charToDigit).reverse =
            (r.map charToDigit).reverse ++ [charToDigit c] := by
          simp
        rw [List.getLast_congr _ _ hrw, List.getLast_concat]
        have := charToDigit_pos hcdig hc0
        omega
    rw [hval]
    unfold natDigitChars
    rw [if_neg (Nat.pos_iff_ne_zero.mp hvpos)]
    rw [natToRevDigits_eq_digits _ _ (le_refl _), hL, List.reverse_reverse]
    rw [List.map_map]
    have hid : (c :: r).map (digitToChar ∘ charToDigit) = c :: r := by
      rw [List.map_congr_left (fun x hx => ?_), List.map_id]
      exact digitToChar_charToDigit (hdig x (hsub x hx))
    rw [hid]
    unfold stripZeros
    rw [ht]

/-! ### Splitting joined pieces recovers the pieces (claims C6, C7) -/

/-- Splitting a separator-free string yields the string as its only piece. -/
theorem splitOnChar_no_sep (sep : Char) : ∀ (p : List Char), sep ∉ p →
    splitOnChar sep p = [p] := by
  intro p
  induction p with
  | nil => intro _; rfl
  | cons c cs ih =>
    intro h
    have hc : ¬ (c = sep) := by
      intro hc
      subst hc
      exact h (List.mem_cons_self _ _)
    rw [splitOnChar, if_neg hc, ih (fun hm => h (List.mem_cons_of_mem _ hm))]

/-- Splitting across the first separator peels off the first piece. -/
theorem splitOnChar_append (sep : Char) : ∀ (p rest : List Char), sep ∉ p →
    splitOnChar sep (p ++ sep :: rest) = p :: splitOnChar sep rest := by
  intro p
  induction p with
  | nil =>
    intro rest _
    rw [List.nil_append, splitOnChar, if_pos rfl]
  | cons c cs ih =>
    intro rest h
    have hc : ¬ (c = sep) := by
      intro hc
      subst hc
      exact h (List.mem_cons_self _ _)
    rw [List.cons_append, splitOnChar, if_neg hc,
      ih rest (fun hm => h (List.mem_cons_of_mem _ hm))]

/-- Splitting the separator-joined pieces recovers the pieces, when no piece
contains the separator. -/
theorem splitOnChar_joinWith (sep : Char) : ∀ (parts : List (List Char)),
    parts ≠ [] → (∀ p ∈ parts, sep ∉ p) →
    splitOnChar sep (joinWith sep parts) = parts := by
  intro parts
  induction parts with
  | nil => intro h _; exact absurd rfl h
  | cons p ps ih =>
    intro _ hall
    rcases ps with _ | ⟨q, qs⟩
    · exact splitOnChar_no_sep sep p (hall p (List.mem_cons_self _ _))
    · have hjoin : joinWith sep (p :: q :: qs) = p ++ sep :: joinWith sep (q :: qs) := rfl
      rw [hjoin, splitOnChar_append sep p _ (hall p (List.mem_cons_self _ _)),
        ih (List.cons_ne_nil q qs) (fun r hr => hall r (List.mem_cons_of_mem _ hr))]

/-- Mapping a function that succeeds on every element through `mapM`
succeeds with the mapped values. -/
theorem mapM_ok {α β : Type} (f : α → Except PyErr β) (g : α → β) :
    ∀ (l : List α), (∀ x ∈ l, f x = .ok (g x)) →
    l.mapM f = .ok (l.map g) := by
  intro l
  induction l with
  | nil => intro _; rfl
  | cons x xs ih =>
    intro h
    rw [List.mapM_cons, h x (List.mem_cons_self _ _),
      ih (fun y hy => h y (List.mem_cons_of_mem _ hy))]
    rfl

/-- Parsing a non-empty all-digit piece succeeds with its value. -/
theorem parsePyInt_ok (p : List Char) (hne : p ≠ [])
    (hdig : ∀ c ∈ p, isDig c = true) : parsePyInt p = .ok (digitsVal p) := by
  unfold parsePyInt
  rw [if_pos ⟨hne, List.all_eq_true.mpr hdig⟩]

/-- A digit character is not a dot. -/
theorem isDig_ne_dot {c : Char} (h : isDig c = true) : c ≠ '.' := by
  intro hc
  subst hc
  exact Bool.noConfusion h

/-- C6: for every valid dotted version string — presented as its nonempty
list of nonempty all-digit components that the dots join — `_version_tuple`
parses it to the list of component values, and re-joining the decimal
renderings of those values with "." yields the original string with leading
zeros stripped from each component. -/
theorem version_roundtrip (parts : List (List Char)) (hne : parts ≠ [])
    (hp : ∀ p ∈ parts, p ≠ [] ∧ ∀ c ∈ p, isDig c = true) :
    version_tuple (joinWith '.' parts) = .ok (parts.map digitsVal) ∧
    joinWith '.' ((parts.map digitsVal).map natDigitChars) =
      joinWith '.' (parts.map stripZeros) := by
  constructor
  · unfold version_tuple
    rw [splitOnChar_joinWith '.' parts hne (fun p hp' hc =>
      isDig_ne_dot ((hp p hp').2 '.' hc) rfl)]
    exact mapM_ok parsePyInt digitsVal parts
      (fun p hp' => parsePyInt_ok p (hp p hp').1 (hp p hp').2)
  · rw [List.map_map]
    exact congrArg (joinWith '.')
      (List.map_congr_left (fun p hp' => natDigitChars_digitsVal p (hp p hp').2))

/-- C6 witness: instantiating the round-trip theorem at the components of
"1.02.3", which parses to (1, 2, 3) and reconstructs to "1.2.3". -/
theorem version_roundtrip_witness :
    version_tuple (joinWith '.' [chars "1", chars "02", chars "3"]) =
      .ok ([chars "1", chars "02", chars "3"].map digitsVal) ∧
    joinWith '.' (([chars "1", chars "02", chars "3"].map digitsVal).map natDigitChars) =
      joinWith '.' ([chars "1", chars "02", chars "3"].map stripZeros) :=
  version_roundtrip [chars "1", chars "02", chars "3"] (by decide) (by decide)

/-! ### Lemmas for the RAM extraction (claim C7) -/

/-- The "Mem:" replacement leaves a colon-free string unchanged (fueled
form). -/
theorem replaceMemF_no_colon : ∀ (f : Nat) (s : List Char), s.length ≤ f →
    (∀ c ∈ s, c ≠ ':') → replaceMemF f s = s := by
  intro f
  induction f with
  | zero =>
    intro s hf _
    have h0 : s = [] := List.eq_nil_of_length_eq_zero (Nat.le_zero.mp hf)
    subst h0
    rfl
  | succ f ih =>
    intro s hf hno
    rcases s with _ | ⟨c, cs⟩
    · rfl
    · have hcond : ¬ (c = 'M' ∧ cs.take 3 = ['e', 'm', ':']) := by
        rintro ⟨_, htake⟩
        have : (':' : Char) ∈ cs.take 3 := by
          rw [htake]
          exact List.mem_cons_of_mem _ (List.mem_cons_of_mem _ (List.mem_cons_self _ _))
        exact hno ':' (List.mem_cons_of_mem _ (List.mem_of_mem_take this)) rfl
      rw [replaceMemF, if_neg hcond]
      congr 1
      refine ih cs ?_ (fun x hx => hno x (List.mem_cons_of_mem _ hx))
      simp only [List.length_cons] at hf
      omega

/-- The "Mem:" replacement leaves a colon-free string unchanged. -/
theorem replaceMem_no_colon (s : List Char) (hno : ∀ c ∈ s, c ≠ ':') :
    replaceMem s = s :=
  replaceMemF_no_colon s.length s (le_refl _) hno

/-- A printable non-space character is none of the stripped whitespace
characters. -/
theorem printable_not_space {c : Char} (h1 : 32 < c.toNat) :
    c ≠ ' ' ∧ c ≠ '\n' ∧ isSpaceChar c = false := by
  have hsp : c ≠ ' ' := by
    intro hc; subst hc; exact absurd h1 (by decide)
  have htab : c ≠ '\t' := by
    intro hc; subst hc; exact absurd h1 (by decide)
  have hnl : c ≠ '\n' := by
    intro hc; subst hc; exact absurd h1 (by decide)
  have hcr : c ≠ '\r' := by
    intro hc; subst hc; exact absurd h1 (by decide)
  refine ⟨hsp, hnl, ?_⟩
  unfold isSpaceChar
  rw [beq_eq_false_iff_ne.mpr hsp, beq_eq_false_iff_ne.mpr htab,
    beq_eq_false_iff_ne.mpr hnl, beq_eq_false_iff_ne.mpr hcr]
  rfl

/-- A digit character is printable, non-space and not a colon. -/
theorem isDig_printable {c : Char} (h : isDig c = true) :
    32 < c.toNat ∧ c.toNat < 127 ∧ c ≠ ':' := by
  rcases isDig_cases h with h | h | h | h | h | h | h | h | h | h <;> subst h <;> decide

/-- The head of a nonempty-first-piece join is the head of the first piece. -/
theorem joinWith_head? (sep : Char) (p : List Char) (ps : List (List Char))
    (hp : p ≠ []) : (joinWith sep (p :: ps)).head? = p.head? := by
  rcases ps with _ | ⟨q, qs⟩
  · rfl
  · show (p ++ sep :: joinWith sep (q :: qs)).head? = p.head?
    rcases p with _ | ⟨c, cs⟩
    · exact absurd rfl hp
    · rfl

/-- The last element of a join of nonempty pieces is the last element of one
of the pieces. -/
theorem getLast?_joinWith (sep : Char) : ∀ (ps : List (List Char)) (p : List Char),
    p ≠ [] → (∀ q ∈ ps, q ≠ []) →
    ∃ r ∈ p :: ps, (joinWith sep (p :: ps)).getLast? = r.getLast? := by
  intro ps
  induction ps with
  | nil => intro p _ _; exact ⟨p, List.mem_cons_self _ _, rfl⟩
  | cons q qs ih =>
    intro p hp hqs
    obtain ⟨r, hr, heq⟩ := ih q (hqs q (List.mem_cons_self _ _))
      (fun x hx => hqs x (List.mem_cons_of_mem _ hx))
    refine ⟨r, List.mem_cons_of_mem _ hr, ?_⟩
    show (p ++ sep :: joinWith sep (q :: qs)).getLast? = r.getLast?
    rw [List.getLast?_append]
    have hne : joinWith sep (q :: qs) ≠ [] := by
      intro hcontra
      have hh := joinWith_head? sep q qs (hqs q (List.mem_cons_self _ _))
      rw [hcontra] at hh
      rcases hq : q with _ | ⟨d, ds⟩
      · exact hqs q (List.mem_cons_self _ _) hq
      · rw [hq] at hh
        exact Option.noConfusion hh
    rcases hj : joinWith sep (q :: qs) with _ | ⟨d, ds⟩
    · exact absurd hj hne
    · rw [hj] at heq
      rw [List.getLast?_cons_cons, heq]
      have hrne : r ≠ [] := hqs r hr
      rcases hr2 : r.getLast? with _ | x
      · exact absurd (List.getLast?_eq_none_iff.mp hr2) hrne
      · rfl

/-- A string whose first and last characters are not whitespace is unchanged
by `strip()`. -/
theorem pyStrip_eq_self (s : List Char)
    (hh : ∀ c, s.head? = some c → isSpaceChar c = false)
    (hl : ∀ c, s.getLast? = some c → isSpaceChar c = false) :
    pyStrip s = s := by
  unfold pyStrip
  have h1 : s.dropWhile isSpaceChar = s := by
    rcases s with _ | ⟨c, cs⟩
    · rfl
    · exact List.dropWhile_cons_of_neg (by simp [hh c rfl])
  rw [h1]
  have h2 : s.reverse.dropWhile isSpaceChar = s.reverse := by
    rcases hrev : s.reverse with _ | ⟨d, ds⟩
    · rfl
    · have hd : s.getLast? = some d := by
        rw [← List.head?_reverse, hrev]
        rfl
      exact List.dropWhile_cons_of_neg (by simp [hl d hd])
  rw [h2, List.reverse_reverse]

/-- Stripping a space-join of nonempty space-free pieces is the identity. -/
theorem pyStrip_joinWith (p : List Char) (ps : List (List Char))
    (hp : ∀ q ∈ p :: ps, q ≠ [] ∧ ∀ c ∈ q, isSpaceChar c = false) :
    pyStrip (joinWith ' ' (p :: ps)) = joinWith ' ' (p :: ps) := by
  apply pyStrip_eq_self
  · intro c hc
    rw [joinWith_head? ' ' p ps (hp p (List.mem_cons_self _ _)).1] at hc
    exact (hp p (List.mem_cons_self _ _)).2 c (List.mem_of_mem_head? (hc ▸ rfl))
  · intro c hc
    obtain ⟨r, hr, heq⟩ := getLast?_joinWith ' ' ps p
      (hp p (List.mem_cons_self _ _)).1 (fun q hq => (hp q (List.mem_cons_of_mem _ hq)).1)
    rw [heq] at hc
    have hcr : c ∈ r := by
      have : r.reverse.head? = some c := by
        rw [List.head?_reverse]
        exact hc
      exact List.mem_reverse.mp (List.mem_of_mem_head? (this ▸ rfl))
    exact (hp r hr).2 c hcr

/-- Every character of a join is the separator or lies in some piece. -/
theorem mem_joinWith (sep : Char) : ∀ (ps : List (List Char)) (c : Char),
    c ∈ joinWith sep ps → c = sep ∨ ∃ p ∈ ps, c ∈ p := by
  intro ps
  induction ps with
  | nil => intro c hc; exact absurd hc (List.not_mem_nil c)
  | cons p ps ih =>
    intro c hc
    rcases ps with _ | ⟨q, qs⟩
    · exact .inr ⟨p, List.mem_cons_self _ _, hc⟩
    · have hc' : c ∈ p ++ sep :: joinWith sep (q :: qs) := hc
      rcases List.mem_append.mp hc' with h | h
      · exact .inr ⟨p, List.mem_cons_self _ _, h⟩
      · rcases List.mem_cons.mp h with h | h
        · exact .inl h
        · rcases ih c h with h | ⟨r, hr, hcr⟩
          · exact .inl h
          · exact .inr ⟨r, List.mem_cons_of_mem _ hr, hcr⟩

/-- Splitting a space-join on space runs recovers the pieces, when every
piece after the first is nonempty and no piece contains a space (fueled
form). -/
theorem splitSpF_joinWith : ∀ (f : Nat) (p : List Char) (ps : List (List Char)),
    ' ' ∉ p →
    (∀ q ∈ ps, q ≠ [] ∧ ' ' ∉ q) →
    (joinWith ' ' (p :: ps)).length ≤ f →
    splitSpF f (joinWith ' ' (p :: ps)) = p :: ps := by
  intro f
  induction f with
  | zero =>
    intro p ps hp hps hlen
    rcases ps with _ | ⟨q, qs⟩
    · have hp0 : p = [] := by
        have hj : joinWith ' ' [p] = p := rfl
        rw [hj] at hlen
        exact List.eq_nil_of_length_eq_zero (Nat.le_zero.mp hlen)
      subst hp0
      rfl
    · exfalso
      have hj : joinWith ' ' (p :: q :: qs) = p ++ ' ' :: joinWith ' ' (q :: qs) := rfl
      rw [hj] at hlen
      simp only [List.length_append, List.length_cons] at hlen
      omega
  | succ f ih =>
    intro p ps hp hps hlen
    rcases p with _ | ⟨c, cs⟩
    · rcases ps with _ | ⟨q, qs⟩
      · rfl
      · have hj : joinWith ' ' ([] :: q :: qs) = ' ' :: joinWith ' ' (q :: qs) := rfl
        rw [hj] at hlen ⊢
        rw [splitSpF, if_pos rfl]
        have hdw : (joinWith ' ' (q :: qs)).dropWhile (fun x => x = ' ') =
            joinWith ' ' (q :: qs) := by
          rcases hjq : joinWith ' ' (q :: qs) with _ | ⟨d, ds⟩
          · rfl
          · have hh := joinWith_head? ' ' q qs (hps q (List.mem_cons_self _ _)).1
            rw [hjq] at hh
            have hd : d ∈ q := List.mem_of_mem_head? hh.symm
            have hdne : ¬ (d = ' ') := by
              intro h
              exact (hps q (List.mem_cons_self _ _)).2 (h ▸ hd)
            exact List.dropWhile_cons_of_neg (by simp [hdne])
        rw [hdw]
        congr 1
        refine ih q qs (hps q (List.mem_cons_self _ _)).2
          (fun x hx => hps x (List.mem_cons_of_mem _ hx)) ?_
        simp only [List.length_cons] at hlen
        omega
    · have hc : ¬ (c = ' ') := by
        intro h
        subst h
        exact hp (List.mem_cons_self _ _)
      have hj : joinWith ' ' ((c :: cs) :: ps) = c :: joinWith ' ' (cs :: ps) := by
        rcases ps with _ | ⟨q, qs⟩ <;> rfl
      rw [hj] at hlen ⊢
      have hlen' : (joinWith ' ' (cs :: ps)).length ≤ f := by
        simp only [List.length_cons] at hlen
        omega
      rw [splitSpF, if_neg hc,
        ih cs ps (fun hm => hp (List.mem_cons_of_mem _ hm)) hps hlen']

/-- Splitting a space-join on space runs recovers the pieces. -/
theorem splitSp_joinWith (p : List Char) (ps : List (List Char))
    (hp : ' ' ∉ p) (hps : ∀ q ∈ ps, q ≠ [] ∧ ' ' ∉ q) :
    splitSp (joinWith ' ' (p :: ps)) = p :: ps :=
  splitSpF_joinWith _ p ps hp hps (le_refl _)

/-- A decimal rendering is never empty. -/
theorem natDigitChars_ne_nil (n : Nat) : natDigitChars n ≠ [] := by
  unfold natDigitChars
  by_cases h : n = 0
  · rw [if_pos h]
    exact List.cons_ne_nil _ _
  · rw [if_neg h, natToRevDigits_eq_digits _ _ (le_refl _)]
    intro hcontra
    rw [List.map_eq_nil_iff, List.reverse_eq_nil_iff] at hcontra
    exact Nat.digits_ne_nil_iff_ne_zero.mpr h hcontra

/-- Every character of a decimal rendering is a digit character. -/
theorem mem_natDigitChars_isDig {n : Nat} {c : Char}
    (hc : c ∈ natDigitChars n) : isDig c = true := by
  unfold natDigitChars at hc
  by_cases h : n = 0
  · rw [if_pos h] at hc
    rcases List.mem_singleton.mp hc with rfl
    decide
  · rw [if_neg h, natToRevDigits_eq_digits _ _ (le_refl _)] at hc
    obtain ⟨d, hd, rfl⟩ := List.mem_map.mp hc
    have hdm : d ∈ Nat.digits 10 n := List.mem_reverse.mp hd
    exact isDig_digitToChar (Nat.digits_lt_base (by norm_num) hdm)

/-- Parsing back a decimal rendering recovers the number. -/
theorem digitsVal_natDigitChars (n : Nat) : digitsVal (natDigitChars n) = n := by
  unfold natDigitChars
  by_cases h : n = 0
  · rw [if_pos h, h]
    decide
  · rw [if_neg h, natToRevDigits_eq_digits _ _ (le_refl _)]
    rw [digitsVal_eq_ofDigits, List.map_map, List.map_reverse, List.reverse_reverse]
    have hmap : (Nat.digits 10 n).map (charToDigit ∘ digitToChar) = Nat.digits 10 n := by
      have h1 : (Nat.digits 10 n).map (charToDigit ∘ digitToChar) =
          (Nat.digits 10 n).map id :=
        List.map_congr_left (fun d hd =>
          charToDigit_digitToChar (Nat.digits_lt_base (by norm_num) hd))
      rw [h1, List.map_id]
    rw [hmap, Nat.ofDigits_digits]

/-- Parsing a decimal rendering with Python `int` succeeds with the number. -/
theorem parsePyInt_natDigitChars (n : Nat) :
    parsePyInt (natDigitChars n) = .ok n := by
  rw [parsePyInt_ok (natDigitChars n) (natDigitChars_ne_nil n)
    (fun c hc => mem_natDigitChars_isDig hc), digitsVal_natDigitChars]

/-- The dict comprehension lookup finds the value zipped under the last
"total" header (a later binding overrides an earlier one in a Python dict,
so only headers to the right of the designated one must differ). -/
theorem dictGet_zip (hs1 hs2 : List (List Char)) (vs1 : List Nat) (v : Nat)
    (vs2 : List Nat) (hlen : hs1.length = vs1.length)
    (hn2 : chars "total" ∉ hs2) :
    dictGet (List.zip (hs1 ++ chars "total" :: hs2) (vs1 ++ v :: vs2))
      (chars "total") = some v := by
  rw [List.zip_append hlen, List.zip_cons_cons]
  unfold dictGet
  rw [List.reverse_append, List.reverse_cons, List.append_assoc]
  rw [List.find?_append]
  have hfirst : List.find? (fun p => p.1 == chars "total")
      (List.zip hs2 vs2).reverse = none := by
    rw [List.find?_eq_none]
    intro x hx
    have hx1 : x.1 ∈ hs2 := by
      obtain ⟨a, b⟩ := x
      exact (List.of_mem_zip (List.mem_reverse.mp hx)).1
    simp only [beq_iff_eq]
    intro hax
    rw [hax] at hx1
    exact hn2 hx1
  rw [hfirst]
  have hhit : List.find? (fun p => p.1 == chars "total")
      ([(chars "total", v)] ++ (List.zip hs1 vs1).reverse) =
      some (chars "total", v) := by
    rw [List.find?_append]
    have : List.find? (fun p => p.1 == chars "total") [(chars "total", v)] =
        some (chars "total", v) := by
      rw [List.find?_cons_of_pos]
      simp
    rw [this]
    rfl
  rw [hhit]
  rfl

/-- Stripping a space-join of nonempty space-free pieces is the identity
(for any nonempty list of pieces). -/
theorem pyStrip_joinWith_of_ne_nil (ps : List (List Char)) (hne : ps ≠ [])
    (hp : ∀ q ∈ ps, q ≠ [] ∧ ∀ c ∈ q, isSpaceChar c = false) :
    pyStrip (joinWith ' ' ps) = joinWith ' ' ps := by
  rcases ps with _ | ⟨p, ps⟩
  · exact absurd rfl hne
  · exact pyStrip_joinWith p ps hp

/-- Splitting a space-join on space runs recovers the pieces (for any
nonempty list of nonempty space-free pieces). -/
theorem splitSp_joinWith_of_ne_nil (ps : List (List Char)) (hne : ps ≠ [])
    (hp : ∀ q ∈ ps, q ≠ [] ∧ ' ' ∉ q) : splitSp (joinWith ' ' ps) = ps := by
  rcases ps with _ | ⟨p, ps⟩
  · exact absurd rfl hne
  · exact splitSp_joinWith p ps (hp p (List.mem_cons_self _ _)).2
      (fun q hq => hp q (List.mem_cons_of_mem _ hq))

/-- When the stripped split lines have the shape header, values, and at
least one further line, `hardware_ram` reduces to the zip-parse-lookup of
the first two lines. -/
theorem hardware_ram_parse (out l0 l1 : List Char) (rest : List (List Char))
    (h : (pySplitLines (replaceMem out)).map pyStrip = l0 :: l1 :: rest)
    (hrest : rest ≠ []) :
    hardware_ram out =
      match (List.zip (splitSp l0) (splitSp l1)).mapM
          (fun kv => (parsePyInt kv.2).map (fun n => (kv.1, n))) with
      | .error e => .error e
      | .ok kvs =>
        match dictGet kvs (chars "total") with
        | none => .error .keyError
        | some v => .ok v := by
  unfold hardware_ram
  rw [h]
  rcases rest with _ | ⟨r, rs⟩
  · exact absurd rfl hrest
  · rfl

/-- C7: for every `free`-style output made of a header line whose
space-separated well-formed tokens contain "total" (with no later duplicate)
followed immediately by a values line of integers with a value positioned
under "total", and a trailing blank line, `hardware_ram` returns exactly
that value, ignoring every other column. -/
theorem ram_total_extraction (hs1 hs2 : List (List Char)) (vs1 : List Nat)
    (v : Nat) (vs2 : List Nat)
    (hlen : hs1.length = vs1.length)
    (h1 : ∀ p ∈ hs1, headerTok p) (h2 : ∀ p ∈ hs2, headerTok p)
    (hn2 : chars "total" ∉ hs2) :
    hardware_ram (ramInput (hs1 ++ chars "total" :: hs2) (vs1 ++ v :: vs2)) =
      .ok v := by
  have htokAll : ∀ p ∈ hs1 ++ chars "total" :: hs2, headerTok p := by
    intro p hp
    rcases List.mem_append.mp hp with h | h
    · exact h1 p h
    · rcases List.mem_cons.mp h with h | h
      · rw [h]
        decide
      · exact h2 p h
  have hvtok : ∀ q ∈ (vs1 ++ v :: vs2).map natDigitChars,
      q ≠ [] ∧ ∀ c ∈ q, isDig c = true := by
    intro q hq
    obtain ⟨w, _, rfl⟩ := List.mem_map.mp hq
    exact ⟨natDigitChars_ne_nil w, fun c hc => mem_natDigitChars_isDig hc⟩
  -- the "Mem:" replacement is the identity: no colon occurs anywhere
  have hnocolon : ∀ c ∈ ramInput (hs1 ++ chars "total" :: hs2) (vs1 ++ v :: vs2),
      c ≠ ':' := by
    intro c hc
    unfold ramInput at hc
    rcases List.mem_append.mp hc with h | h
    · rcases mem_joinWith ' ' _ c h with h | ⟨p, hp, hcp⟩
      · rw [h]; decide
      · exact ((htokAll p hp).2 c hcp).2.2
    · rcases List.mem_cons.mp h with h | h
      · rw [h]; decide
      · rcases List.mem_append.mp h with h | h
        · rcases mem_joinWith ' ' _ c h with h | ⟨q, hq, hcq⟩
          · rw [h]; decide
          · exact (isDig_printable ((hvtok q hq).2 c hcq)).2.2
        · have : c = '\n' := by
            rcases List.mem_cons.mp h with h | h
            · exact h
            · exact List.mem_singleton.mp h
          rw [this]; decide
  have hrepl : replaceMem (ramInput (hs1 ++ chars "total" :: hs2) (vs1 ++ v :: vs2)) =
      ramInput (hs1 ++ chars "total" :: hs2) (vs1 ++ v :: vs2) :=
    replaceMem_no_colon _ hnocolon
  -- the split into lines: header line, values line, empty line
  have hHnl : '\n' ∉ joinWith ' ' (hs1 ++ chars "total" :: hs2) := by
    intro h
    rcases mem_joinWith ' ' _ '\n' h with h | ⟨p, hp, hcp⟩
    · exact absurd h (by decide)
    · have := ((htokAll p hp).2 '\n' hcp).1
      exact absurd this (by decide)
  have hVnl : '\n' ∉ joinWith ' ' ((vs1 ++ v :: vs2).map natDigitChars) := by
    intro h
    rcases mem_joinWith ' ' _ '\n' h with h | ⟨q, hq, hcq⟩
    · exact absurd h (by decide)
    · have := (hvtok q hq).2 '\n' hcq
      exact absurd this (by decide)
  have hsplit : pySplitLines (ramInput (hs1 ++ chars "total" :: hs2) (vs1 ++ v :: vs2)) =
      [joinWith ' ' (hs1 ++ chars "total" :: hs2),
       joinWith ' ' ((vs1 ++ v :: vs2).map natDigitChars), []] := by
    have hform : ramInput (hs1 ++ chars "total" :: hs2) (vs1 ++ v :: vs2) =
        (joinWith ' ' (hs1 ++ chars "total" :: hs2) ++
          '\n' :: (joinWith ' ' ((vs1 ++ v :: vs2).map natDigitChars) ++ ['\n'])) ++
          ['\n'] := by
      unfold ramInput
      simp [List.append_assoc]
    unfold pySplitLines
    rw [hform, if_neg (by simp), List.getLast?_concat, if_pos rfl,
      List.dropLast_concat]
    rw [splitOnChar_append '\n' _ _ hHnl]
    have h2 : joinWith ' ' ((vs1 ++ v :: vs2).map natDigitChars) ++ ['\n'] =
        joinWith ' ' ((vs1 ++ v :: vs2).map natDigitChars) ++ '\n' :: ([] : List Char) := rfl
    rw [h2, splitOnChar_append '\n' _ _ hVnl]
    rfl
  have hHsp : ∀ q ∈ hs1 ++ chars "total" :: hs2,
      q ≠ [] ∧ ∀ c ∈ q, isSpaceChar c = false := by
    intro q hq
    exact ⟨(htokAll q hq).1, fun c hc =>
      (printable_not_space ((htokAll q hq).2 c hc).1).2.2⟩
  have hVsp : ∀ q ∈ (vs1 ++ v :: vs2).map natDigitChars,
      q ≠ [] ∧ ∀ c ∈ q, isSpaceChar c = false := by
    intro q hq
    exact ⟨(hvtok q hq).1, fun c hc =>
      (printable_not_space (isDig_printable ((hvtok q hq).2 c hc)).1).2.2⟩
  have hstrip : (pySplitLines (replaceMem
      (ramInput (hs1 ++ chars "total" :: hs2) (vs1 ++ v :: vs2)))).map pyStrip =
      joinWith ' ' (hs1 ++ chars "total" :: hs2) ::
        joinWith ' ' ((vs1 ++ v :: vs2).map natDigitChars) :: [[]] := by
    rw [hrepl, hsplit]
    simp only [List.map_cons, List.map_nil]
    rw [pyStrip_joinWith_of_ne_nil _ (by simp) hHsp,
      pyStrip_joinWith_of_ne_nil _ (by simp [List.map_eq_nil_iff]) hVsp]
    rfl
  rw [hardware_ram_parse _ _ _ [[]] hstrip (List.cons_ne_nil _ _)]
  have hsA : splitSp (joinWith ' ' (hs1 ++ chars "total" :: hs2)) =
      hs1 ++ chars "total" :: hs2 :=
    splitSp_joinWith_of_ne_nil _ (by simp) (fun q hq =>
      ⟨(htokAll q hq).1, fun hsp =>
        absurd ((htokAll q hq).2 ' ' hsp).1 (by decide)⟩)
  have hsB : splitSp (joinWith ' ' ((vs1 ++ v :: vs2).map natDigitChars)) =
      (vs1 ++ v :: vs2).map natDigitChars :=
    splitSp_joinWith_of_ne_nil _ (by simp [List.map_eq_nil_iff]) (fun q hq =>
      ⟨(hvtok q hq).1, fun hsp =>
        absurd (isDig_printable ((hvtok q hq).2 ' ' hsp)).1 (by decide)⟩)
  rw [hsA, hsB]
  have hmapM : (List.zip (hs1 ++ chars "total" :: hs2)
      ((vs1 ++ v :: vs2).map natDigitChars)).mapM
      (fun kv => (parsePyInt kv.2).map (fun n => (kv.1, n))) =
      .ok (List.zip (hs1 ++ chars "total" :: hs2) (vs1 ++ v :: vs2)) := by
    have hfe : ∀ kv ∈ List.zip (hs1 ++ chars "total" :: hs2)
        ((vs1 ++ v :: vs2).map natDigitChars),
        (parsePyInt kv.2).map (fun n => (kv.1, n)) =
          .ok (kv.1, digitsVal kv.2) := by
      intro kv hkv
      obtain ⟨a, b⟩ := kv
      have hb : b ∈ (vs1 ++ v :: vs2).map natDigitChars :=
        (List.of_mem_zip hkv).2
      rw [parsePyInt_ok b (hvtok b hb).1 (hvtok b hb).2]
      rfl
    rw [mapM_ok _ _ _ hfe]
    congr 1
    rw [List.zip_map_right, List.map_map]
    have hmc : (List.zip (hs1 ++ chars "total" :: hs2) (vs1 ++ v :: vs2)).map
        ((fun kv : List Char × List Char => (kv.1, digitsVal kv.2)) ∘
          Prod.map id natDigitChars) =
        (List.zip (hs1 ++ chars "total" :: hs2) (vs1 ++ v :: vs2)).map id :=
      List.map_congr_left (fun x _ => by
        obtain ⟨a, b⟩ := x
        show (a, digitsVal (natDigitChars b)) = (a, b)
        rw [digitsVal_natDigitChars])
    rw [hmc, List.map_id]
  rw [hmapM]
  show (match dictGet (List.zip (hs1 ++ chars "total" :: hs2) (vs1 ++ v :: vs2))
      (chars "total") with
    | none => (Except.error PyErr.keyError : Except PyErr Nat)
    | some w => Except.ok w) = Except.ok v
  rw [dictGet_zip hs1 hs2 vs1 v vs2 hlen hn2]

/-- C7 witness: instantiating the extraction theorem at the `free` header
"total used free shared buff/cache available" with values
8007488 2204612 223096 168612 5579780 5331372, which yields 8007488. -/
theorem ram_total_extraction_witness :
    hardware_ram (ramInput ([] ++ chars "total" ::
        [chars "used", chars "free", chars "shared", chars "buff/cache",
         chars "available"])
      ([] ++ 8007488 :: [2204612, 223096, 168612, 5579780, 5331372])) =
      .ok 8007488 :=
  ram_total_extraction []
    [chars "used", chars "free", chars "shared", chars "buff/cache",
     chars "available"]
    [] 8007488 [2204612, 223096, 168612, 5579780, 5331372]
    rfl (by decide) (by decide) (by decide)
